import Mathlib

/-!
Verification of the algorithmic plugins of the MaxDietsch/mmpretrain fork
(imbalanced-data medical image classification):

* `crl_loss.py` — the `CRLLoss` module: the weighted cross-entropy wrapper and
  the per-class hard-negative mining loop (a bounded top-k selection kept in a
  `heapq` min-heap per predicted class);
* `dos_head.py` / `cosen_linear_head.py` — the head/loss pairing checks;
* `processing.py` — the `RandomCrop` / `RandomResizedCrop` pipeline transforms.

The Python code is embedded shallowly: tensors of scores become lists of
rationals, the per-class heap dictionary becomes a function from class index to
a list of `(confidence, example-index)` entries kept sorted in the heap order
(ascending lexicographic order, so the head of the list is the heap root, the
minimum), and fallible constructs (IndexError on `h[0]` for an empty heap,
ValueError from `np.random.randint` on an empty range, failing name lookups)
return `Option`/`Except` errors.

`crl_loss.py` as written cannot execute: line 159 has a mismatched parenthesis
(a `SyntaxError` aborts the module import before any definition is made), and
its executable paths reference the unbound names `labels`, `hard_ned_ind`,
`lab` and `torch`.  Those static facts are proved below from a character-level
and scope-level embedding.  The behavioural theorems about the mining loop are
therefore proved about the loop with each undefined name read as its evident
referent, recorded at each definition: `labels` as the parameter `label`,
`hard_ned_ind` as `hard_neg_ind` (assigned four lines earlier), and
`max_pred[lab]` as `max_pred[idx]` (the loop variable used in every
neighbouring subscript).
-/

namespace MMPretrain

/-! ## Python static semantics: errors, name scopes, parenthesis balance -/

/-- Runtime/compile-time Python errors relevant to this repository. -/
inductive PyErr where
  | syntaxError
  | nameError (n : String)
  | typeError
  | valueError
  deriving DecidableEq, Repr

/-- Scan a character list keeping the current depth of unclosed parentheses;
`true` iff every `)` matches an earlier `(` and the final depth is zero. -/
def parenScan : List Char → ℕ → Bool
  | [], d => d == 0
  | c :: cs, d =>
    if c = '(' then parenScan cs (d + 1)
    else if c = ')' then (if d = 0 then false else parenScan cs (d - 1))
    else parenScan cs d

/-- A physical line is parenthesis-balanced iff its scan succeeds at depth 0. -/
def parenBalanced (s : String) : Bool := parenScan s.toList 0

/-- Line 159 of `crl_loss.py`, verbatim. -/
def crlLine159 : String :=
  "            if (len(hard_samples[0][max_pred_lab[idx]]) >= self.k) and  (max_pred[idx] > hard_samples[0][max_pred_lab[idx]][0][0]:"

/-- Importing a Python module first compiles the whole source; a mismatched
parenthesis is a `SyntaxError`, raised before any statement executes.  So
the import of `crl_loss.py` is decided by the balance of its broken line 159 (every
other logical line of the file is balanced). -/
def crlModuleImport : Except PyErr Unit :=
  if parenBalanced crlLine159 then Except.ok () else Except.error PyErr.syntaxError

/-- Python builtins referenced by `crl_loss.py`. -/
def pyBuiltins : List String :=
  ["print", "len", "enumerate", "range", "super", "isinstance", "min", "max"]

/-- Module-level bindings of `crl_loss.py`: the imports
(`import torch.nn as nn` binds only `nn`, `import torch.nn.functional as F`
binds `F`, `from mmpretrain.registry import MODELS`, `from .utils import
weight_reduce_loss`, `import heapq`) and the two definitions. -/
def crlModuleNames : List String :=
  ["nn", "F", "MODELS", "weight_reduce_loss", "heapq", "cross_entropy", "CRLLoss"]

/-- Local names of `CRLLoss.__init__` (lines 72-101): parameters and
assigned locals. -/
def crlInitLocals : List String :=
  ["self", "min_classes", "k", "use_sigmoid", "use_soft", "reduction",
   "loss_weight", "class_weight", "pos_weight"]

/-- Local names of `CRLLoss.forward` (lines 103-180): parameters and every
name assigned anywhere in the body (Python function scope). -/
def crlForwardLocals : List String :=
  ["self", "cls_score", "label", "weight", "avg_factor", "reduction_override",
   "kwargs", "reduction", "class_weight", "pos_weight", "min_labels_mask",
   "ind", "hard_samples", "max_pred", "max_pred_lab", "max_thrs_mask",
   "hard_neg_ind", "i", "idx", "loss_cls"]

/-- Everything a name inside `CRLLoss.forward` can resolve to. -/
def crlForwardScope : List String := pyBuiltins ++ crlModuleNames ++ crlForwardLocals

/-- Everything a name inside `CRLLoss.__init__` can resolve to. -/
def crlInitScope : List String := pyBuiltins ++ crlModuleNames ++ crlInitLocals

/-! ## Head / loss pairing checks (`dos_head.py`, `cosen_linear_head.py`) -/

/-- Runtime type of the `self.loss_module` that the framework builds for a
head from its `loss` config. -/
inductive LossTy where
  | dosLoss
  | cosenCE
  | other
  deriving DecidableEq, Repr

/-- Names visible inside `DOSHead.__init__` (dos_head.py): module imports
(`torch`, `nn`, `Optional`, `Tuple`, `MODELS`, `LinearClsHead`), the class
being defined, its parameters and locals.  `DOSLoss` is referenced at line 22
but appears in no import and no assignment of the file. -/
def dosHeadInitScope : List String :=
  pyBuiltins ++
    ["torch", "nn", "Optional", "Tuple", "MODELS", "LinearClsHead", "DOSHead",
     "self", "num_classes", "in_channels", "init_cfg", "kwargs"]

/-- Names visible inside `CoSenLinearClsHead.__init__` (cosen_linear_head.py);
here the paired loss class is imported:
`from ..losses.cosen_ce_loss import CoSenCrossEntropyLoss`. -/
def cosenHeadInitScope : List String :=
  pyBuiltins ++
    ["Optional", "Tuple", "List", "DataSample", "torch", "nn", "MODELS",
     "LinearClsHead", "CoSenCrossEntropyLoss", "CoSenLinearClsHead",
     "self", "kwargs"]

/-- Embedding of `DOSHead.__init__` (dos_head.py lines 11-23).  The
`super(LinearClsHead, self).__init__(...)` call runs framework base-class
code outside this repository; Modelled from the spec: the registry-based
framework's head initializer builds `self.loss_module` from declarative
configuration, modelled as succeeding with the built loss of type `loss`.
The guard `if not isinstance(self.loss_module, DOSLoss)` then evaluates the
name `DOSLoss` before anything else; an unbound name raises `NameError`. -/
def dosHeadInit (loss : LossTy) : Except PyErr Unit :=
  if "DOSLoss" ∈ dosHeadInitScope then
    if loss = LossTy.dosLoss then Except.ok () else Except.error PyErr.typeError
  else Except.error (PyErr.nameError "DOSLoss")

/-- Embedding of `CoSenLinearClsHead.__init__` (cosen_linear_head.py lines
22-27), with the inherited `LinearClsHead.__init__` Modelled from the spec as
for `dosHeadInit`.  `CoSenCrossEntropyLoss` is bound by the module's imports,
so the `isinstance` guard runs and raises `TypeError` exactly when the built
loss module is not a `CoSenCrossEntropyLoss`. -/
def cosenHeadInit (loss : LossTy) : Except PyErr Unit :=
  if "CoSenCrossEntropyLoss" ∈ cosenHeadInitScope then
    if loss = LossTy.cosenCE then Except.ok () else Except.error PyErr.typeError
  else Except.error (PyErr.nameError "CoSenCrossEntropyLoss")

/-! ## `RandomCrop.rand_crop_params` (processing.py lines 87-109) -/

/-- `np.random.randint(lo, hi)` draws uniformly from `[lo, hi)` and raises
`ValueError` when the range is empty (`lo >= hi`).  The draw is supplied by a
seed `r`; the result is `lo + r % (hi - lo)`, an arbitrary member of the
range. -/
def npRandint (r : ℕ) (lo hi : ℤ) : Option ℤ :=
  if lo < hi then some (lo + (r : ℤ) % (hi - lo)) else none

/-- Embedding of `RandomCrop.rand_crop_params` for an image of height `h` and
width `w` (`h, w = img.shape[:2]`), with crop size `(crop_h, crop_w)` and the
two random draws seeded by `r1`, `r2`.  Faithful to the source, including
line 104, which clamps `target_h` with `min(w, target_h)` (the width!) while
line 103 clamps `target_w` with `min(w, target_w)`.  Returns
`(offset_h, offset_w, target_h, target_w)`, or `none` when a `randint` call
raises `ValueError`. -/
def randCropParams (cropSize : ℕ × ℕ) (h w : ℕ) (r1 r2 : ℕ) :
    Option (ℤ × ℤ × ℕ × ℕ) :=
  let target_h := cropSize.1
  let target_w := cropSize.2
  if w = target_w ∧ h = target_h then some (0, 0, h, w)
  else
    let tw := if w < target_w ∨ h < target_h then min w target_w else target_w
    let th := if w < target_w ∨ h < target_h then min w target_h else target_h
    match npRandint r1 0 ((h : ℤ) - th + 1), npRandint r2 0 ((w : ℤ) - tw + 1) with
    | some oh, some ow => some (oh, ow, th, tw)
    | _, _ => none

/-! ## The hard-negative mining loop of `CRLLoss.forward`

Lines 129-164 of `crl_loss.py`.  A batch is a list of `(label, scores)` rows;
`cls_score[min_labels_mask].max(dim=1)` becomes a per-row maximum value and
first-maximising index over the rows whose label lies in `min_classes`; the
loop then feeds each misclassified row, in order of its position `idx` inside
the masked sub-batch, into a per-predicted-class bounded heap of
`[confidence, idx]` entries.

`heapq` is a min-heap under lexicographic list comparison; it is embedded as a
list kept sorted ascending under that order, whose head is the heap root:
`heappush` is ordered insertion, `heappop` drops the head, and `heap[0]` reads
the head.  The bucket family `hard_samples[0]` is indexed by the predicted
label, as the subscript `hard_samples[0][max_pred_lab[idx]]` denotes (its
allocation at line 141 sizes the list by `len(ind) = 1`, one more slip of the
unfinished code).  The unbound names are read as their evident referents:
`hard_ned_ind` as `hard_neg_ind`, `max_pred[lab]` as `max_pred[idx]`,
`labels` as `label`. -/

/-- One record fed to the mining loop: position inside the masked sub-batch,
confidence of the wrong prediction, predicted label, ground-truth label. -/
structure HRec where
  idx : ℕ
  conf : ℚ
  plab : ℕ
  tlab : ℕ
  deriving DecidableEq, Repr

/-- The `heapq` order on `[confidence, idx]` entries: lexicographic
comparison, confidence first, index second. -/
def entryLe (a b : ℚ × ℕ) : Prop :=
  a.1 < b.1 ∨ (a.1 = b.1 ∧ a.2 ≤ b.2)

instance : DecidableRel entryLe := fun a b => by
  unfold entryLe; infer_instance

instance : IsTotal (ℚ × ℕ) entryLe where
  total a b := by
    rcases lt_trichotomy a.1 b.1 with h | h | h
    · exact Or.inl (Or.inl h)
    · rcases Nat.le_total a.2 b.2 with h2 | h2
      · exact Or.inl (Or.inr ⟨h, h2⟩)
      · exact Or.inr (Or.inr ⟨h.symm, h2⟩)
    · exact Or.inr (Or.inl h)

instance : IsTrans (ℚ × ℕ) entryLe where
  trans a b c hab hbc := by
    rcases hab with h1 | ⟨h1, h1'⟩ <;> rcases hbc with h2 | ⟨h2, h2'⟩
    · exact Or.inl (h1.trans h2)
    · exact Or.inl (h2 ▸ h1)
    · exact Or.inl (h1 ▸ h2)
    · exact Or.inr ⟨h1.trans h2, h1'.trans h2'⟩

/-- The body of the loop at lines 158-163 for one record, acting on the heap
`h` of the record's predicted class.  Returns the new heap together with the
number of `heappop` and `heappush` operations performed.  When
`len(h) >= k`, the guard reads the root `h[0]`; on an empty heap that is an
IndexError (`none`).  The `and` at line 159 short-circuits, so the root is
never read on the `len(h) < k` path. -/
def crlHeapStep (k : ℕ) (h : List (ℚ × ℕ)) (conf : ℚ) (idx : ℕ) :
    Option (List (ℚ × ℕ) × ℕ × ℕ) :=
  if k ≤ h.length then
    match h with
    | [] => none
    | root :: rest =>
      if root.1 < conf then
        some (List.orderedInsert entryLe (conf, idx) rest, 1, 1)
      else
        some (root :: rest, 0, 0)
  else
    some (List.orderedInsert entryLe (conf, idx) h, 0, 1)

/-- The mining state: for each predicted class, its heap of
`(confidence, idx)` entries. -/
def MineSt : Type := ℕ → List (ℚ × ℕ)

/-- One loop iteration on the whole state: only the bucket of the record's
predicted class is touched. -/
def crlStep (k : ℕ) (st : MineSt) (r : HRec) : Option MineSt :=
  (crlHeapStep k (st r.plab) r.conf r.idx).map
    (fun x => Function.update st r.plab x.1)

/-- The loop over a record stream from a given state. -/
def crlRunAux (k : ℕ) (st : MineSt) : List HRec → Option MineSt
  | [] => some st
  | r :: rs =>
    match crlStep k st r with
    | none => none
    | some st' => crlRunAux k st' rs

/-- The mining loop started from the all-empty buckets of line 141. -/
def crlRun (k : ℕ) (rs : List HRec) : Option MineSt :=
  crlRunAux k (fun _ => []) rs

/-- The bucket of class `c` after running the loop. -/
def runC (k : ℕ) (rs : List HRec) (c : ℕ) : Option (List (ℚ × ℕ)) :=
  (crlRun k rs).map (fun st => st c)

/-- The `(confidence, idx)` entries of the records of predicted class `c`, in
stream order. -/
def classEntries (c : ℕ) : List HRec → List (ℚ × ℕ)
  | [] => []
  | r :: rs =>
    if r.plab = c then (r.conf, r.idx) :: classEntries c rs
    else classEntries c rs

/-- A single-bucket run: the loop restricted to one class's entry stream. -/
def heapRunAux (k : ℕ) (h : List (ℚ × ℕ)) : List (ℚ × ℕ) → Option (List (ℚ × ℕ))
  | [] => some h
  | e :: es =>
    match crlHeapStep k h e.1 e.2 with
    | none => none
    | some x => heapRunAux k x.1 es

/-- The maximum of a row of scores (`max_pred` for the row). -/
def maxVal : List ℚ → ℚ
  | [] => 0
  | x :: xs => xs.foldl max x

/-- The first index attaining the maximum (`max_pred_lab` for the row). -/
def argmax (l : List ℚ) : ℕ := l.indexOf (maxVal l)

/-- Lines 146-163: walk the masked rows in order, keeping position `j`; a row
whose first-maximising index differs from its label is a hard negative and
yields the record fed to the loop. -/
def mineRows : ℕ → List (ℕ × List ℚ) → List HRec
  | _, [] => []
  | j, (lab, scores) :: rest =>
    if argmax scores ≠ lab then
      ⟨j, maxVal scores, argmax scores, lab⟩ :: mineRows (j + 1) rest
    else
      mineRows (j + 1) rest

/-- Lines 129-163: `min_labels_mask = torch.isin(label, min_classes)` keeps
exactly the rows whose label is in `min_classes`; the mining records are the
misclassified masked rows. -/
def mineCandidates (minClasses : List ℕ) (batch : List (ℕ × List ℚ)) : List HRec :=
  mineRows 0 (batch.filter (fun p => decide (p.1 ∈ minClasses)))

/-! ## `cross_entropy` and `CRLLoss.forward` (crl_loss.py lines 11-42, 103-180)

Scores and losses are lists of rationals.  The two torch/framework primitives
that `cross_entropy` calls — `F.cross_entropy(pred, label, weight=class_weight,
reduction='none')` (element-wise losses) and `weight_reduce_loss` (defined in
`mmpretrain/models/losses/utils.py`, outside the files of this repository's
contribution) — are abstract function parameters `fce` and `wrl`; both the
embedded `cross_entropy` and the embedded `forward` call the same parameters,
exactly as the Python calls the same functions. -/

/-- The reduction mode strings `'none' | 'mean' | 'sum'`. -/
inductive Red where
  | rnone
  | rmean
  | rsum
  deriving DecidableEq, Repr

/-- Lines 11-42: element-wise `F.cross_entropy` with the class weights, then
`weight_reduce_loss` with the sample weights, reduction and average factor
(the `weight.float()` cast is the identity on rationals). -/
def cross_entropy (fce : List (List ℚ) → List ℕ → Option (List ℚ) → List ℚ)
    (wrl : List ℚ → Option (List ℚ) → Red → Option ℚ → List ℚ)
    (pred : List (List ℚ)) (label : List ℕ) (weight : Option (List ℚ))
    (reduction : Red) (avg_factor : Option ℚ) (class_weight : Option (List ℚ)) :
    List ℚ :=
  wrl (fce pred label class_weight) weight reduction avg_factor

/-- Lines 103-180 of `CRLLoss.forward` on the default criterion path
(`use_sigmoid = use_soft = False`, the only constructible one: the other two
branches of `__init__` reference the undefined names `binary_cross_entropy`
and `soft_cross_entropy`).  The reduction is `reduction_override if
reduction_override else self.reduction`; the mining section (lines 129-164)
runs on the batch and its state is bound to `hard_samples`, which no later
line reads; the returned value is
`self.loss_weight * self.cls_criterion(cls_score, label, weight,
class_weight=class_weight, reduction=reduction, avg_factor=avg_factor)`.
A mining failure (the IndexError of `crlHeapStep` at `k = 0`) aborts the
call, hence the `Option`. -/
def crlForward (fce : List (List ℚ) → List ℕ → Option (List ℚ) → List ℚ)
    (wrl : List ℚ → Option (List ℚ) → Red → Option ℚ → List ℚ)
    (minClasses : List ℕ) (k : ℕ) (loss_weight : ℚ)
    (class_weight : Option (List ℚ)) (self_reduction : Red)
    (cls_score : List (List ℚ)) (label : List ℕ) (weight : Option (List ℚ))
    (avg_factor : Option ℚ) (reduction_override : Option Red) :
    Option (List ℚ) :=
  let reduction := reduction_override.getD self_reduction
  match crlRun k (mineCandidates minClasses (label.zip cls_score)) with
  | none => none
  | some _ =>
    some ((cross_entropy fce wrl cls_score label weight reduction avg_factor
      class_weight).map (fun x => loss_weight * x))

/-! ## Instrumented per-record cost of the mining loop -/

/-- After consuming `rs`, feed one more record and report
`(heappops, heappushes, size of the heap operated on)`. -/
def stepOpsC (k : ℕ) (rs : List HRec) (r : HRec) : Option (ℕ × ℕ × ℕ) :=
  (crlRun k rs).bind fun st =>
    (crlHeapStep k (st r.plab) r.conf r.idx).map
      (fun x => (x.2.1, x.2.2, (st r.plab).length))

/-! ## `RandomCrop.transform` and `RandomResizedCrop.transform`
(processing.py lines 111-148 and 273-299)

The results dict is a partial map from string keys to values; images and the
mmcv primitives (`impad`, `imcrop`, `imresize`), the cached random crop
parameters, and the encodings of an image and of its `.shape` into dict
values are abstract parameters.  Both transforms read `results['img']`,
compute a new image, and write exactly `results['img']` and
`results['img_shape'] = img.shape`. -/

/-- Lines 111-148: optional `impad` with `self.padding`, optional
`pad_if_needed` padding, then `rand_crop_params` and `mmcv.imcrop` on the
bbox `[offset_w, offset_h, offset_w + target_w - 1, offset_h + target_h - 1]`,
finally the two dict writes. -/
def randomCropTransform {Img Val : Type} (getImg : Val → Option Img)
    (mkImg mkShape : Img → Val) (usePadding : Bool) (impadP : Img → Img)
    (padIfNeeded : Bool) (impadN : Img → Img)
    (cropParams : Img → ℕ × ℕ × ℕ × ℕ) (imcrop : Img → ℤ × ℤ × ℤ × ℤ → Img)
    (results : String → Option Val) : Option (String → Option Val) :=
  match results "img" with
  | none => none
  | some v =>
    match getImg v with
    | none => none
    | some img0 =>
      let img1 := if usePadding then impadP img0 else img0
      let img2 := if padIfNeeded then impadN img1 else img1
      let p := cropParams img2
      let bbox : ℤ × ℤ × ℤ × ℤ :=
        ((p.2.1 : ℤ), (p.1 : ℤ), (p.2.1 : ℤ) + p.2.2.2 - 1, (p.1 : ℤ) + p.2.2.1 - 1)
      let img3 := imcrop img2 bbox
      some (Function.update (Function.update results "img" (some (mkImg img3)))
        "img_shape" (some (mkShape img3)))

/-- Lines 273-299: `rand_crop_params`, `mmcv.imcrop` on the same bbox shape,
`mmcv.imresize` to `self.scale`, then the same two dict writes. -/
def randomResizedCropTransform {Img Val : Type} (getImg : Val → Option Img)
    (mkImg mkShape : Img → Val) (cropParams : Img → ℕ × ℕ × ℕ × ℕ)
    (imcrop : Img → ℤ × ℤ × ℤ × ℤ → Img) (imresize : Img → Img)
    (results : String → Option Val) : Option (String → Option Val) :=
  match results "img" with
  | none => none
  | some v =>
    match getImg v with
    | none => none
    | some img0 =>
      let p := cropParams img0
      let bbox : ℤ × ℤ × ℤ × ℤ :=
        ((p.2.1 : ℤ), (p.1 : ℤ), (p.2.1 : ℤ) + p.2.2.2 - 1, (p.1 : ℤ) + p.2.2.1 - 1)
      let img1 := imresize (imcrop img0 bbox)
      some (Function.update (Function.update results "img" (some (mkImg img1)))
        "img_shape" (some (mkShape img1)))

/-! ## Concrete inputs used to witness the theorems -/

/-- Three class-0 records: a confidence tie between indices 0 and 1, then a
harder record. -/
def demoRecs : List HRec := [⟨0, 5, 0, 0⟩, ⟨1, 5, 0, 0⟩, ⟨2, 7, 0, 0⟩]

/-- A batch with minority labels 1 and 3: rows 0 and 2 are misclassified
minority rows, row 1 is a majority row, row 3 is a correctly classified
minority row. -/
def demoBatch : List (ℕ × List ℚ) :=
  [(1, [1, 2, 3]), (0, [9, 1, 1]), (3, [4, 4, 1]), (1, [0, 5, 0])]

/-- A one-key results dict over trivial images. -/
def demoDict : String → Option Unit := fun key => if key = "img" then some () else none

/-- `demoDict` after the two writes both transforms perform. -/
def demoOut : String → Option Unit :=
  Function.update (Function.update demoDict "img" (some ())) "img_shape" (some ())

/-! ## Invariants of the bounded per-class heap -/

theorem entryLe_conf_le {a b : ℚ × ℕ} (h : entryLe a b) : a.1 ≤ b.1 := by
  rcases h with h | ⟨h, _⟩
  · exact le_of_lt h
  · exact le_of_eq h

/-- Exhaustive description of one loop-body execution on a heap. -/
theorem crlHeapStep_cases {k : ℕ} {h : List (ℚ × ℕ)} {a : ℚ} {i : ℕ}
    {out : List (ℚ × ℕ) × ℕ × ℕ} (hs : crlHeapStep k h a i = some out) :
    (¬ k ≤ h.length ∧ out = (List.orderedInsert entryLe (a, i) h, 0, 1))
    ∨ (∃ root rest, h = root :: rest ∧ k ≤ h.length ∧ root.1 < a ∧
        out = (List.orderedInsert entryLe (a, i) rest, 1, 1))
    ∨ (∃ root rest, h = root :: rest ∧ k ≤ h.length ∧ ¬ root.1 < a ∧
        out = (h, 0, 0)) := by
  unfold crlHeapStep at hs
  split at hs
  · rename_i hk
    split at hs
    · exact absurd hs (by simp)
    · rename_i root rest
      split at hs
      · rename_i hroot
        exact Or.inr (Or.inl ⟨root, rest, rfl, hk, hroot, (Option.some_inj.mp hs).symm⟩)
      · rename_i hroot
        exact Or.inr (Or.inr ⟨root, rest, rfl, hk, hroot, (Option.some_inj.mp hs).symm⟩)
  · rename_i hk
    exact Or.inl ⟨hk, (Option.some_inj.mp hs).symm⟩

/-- The invariant tying one class's heap to the entry stream it has consumed:
the heap is sorted in the heap order, holds `min k n` entries after `n`
records, holds only seen entries, every entry it dropped or rejected has
confidence at most that of every held entry, and while below capacity it
holds every seen entry. -/
structure HeapInv (k : ℕ) (es : List (ℚ × ℕ)) (h : List (ℚ × ℕ)) : Prop where
  sorted : h.Sorted entryLe
  len : h.length = min k es.length
  mem : ∀ e ∈ h, e ∈ es
  dom : ∀ e ∈ h, ∀ s ∈ es, s ∉ h → s.1 ≤ e.1
  nfull : h.length < k → ∀ s ∈ es, s ∈ h

theorem heapInv_nil {k : ℕ} : HeapInv k [] [] where
  sorted := List.sorted_nil
  len := by simp
  mem := by simp
  dom := by simp
  nfull := by simp

/-- One loop iteration preserves the invariant, the record moving from the
future to the consumed stream. -/
theorem heapInv_step {k : ℕ} {es h : List (ℚ × ℕ)} (inv : HeapInv k es h)
    {a : ℚ} {i : ℕ} {out : List (ℚ × ℕ) × ℕ × ℕ}
    (hs : crlHeapStep k h a i = some out) :
    HeapInv k (es ++ [(a, i)]) out.1 := by
  rcases crlHeapStep_cases hs with ⟨hk, hout⟩ | ⟨root, rest, hh, hk, hroot, hout⟩ |
      ⟨root, rest, hh, hk, hroot, hout⟩
  · -- below capacity: plain heappush
    have hlt : h.length < k := Nat.lt_of_not_le hk
    have hcount : h.length = es.length := by
      have := inv.len; omega
    subst hout
    dsimp only
    refine ⟨List.Sorted.orderedInsert _ _ inv.sorted, ?_, ?_, ?_, ?_⟩
    · rw [List.orderedInsert_length, List.length_append, List.length_singleton]; omega
    · intro e he
      rcases (List.mem_orderedInsert entryLe).mp he with he | he
      · simp [he]
      · exact List.mem_append_left _ (inv.mem e he)
    · intro e he s hsmem hsnot
      exfalso
      rcases List.mem_append.mp hsmem with hs' | hs'
      · exact hsnot ((List.mem_orderedInsert entryLe).mpr
          (Or.inr (inv.nfull hlt s hs')))
      · exact hsnot ((List.mem_orderedInsert entryLe).mpr
          (Or.inl (List.mem_singleton.mp hs')))
    · intro _ s hsmem
      rcases List.mem_append.mp hsmem with hs' | hs'
      · exact (List.mem_orderedInsert entryLe).mpr (Or.inr (inv.nfull hlt s hs'))
      · exact (List.mem_orderedInsert entryLe).mpr
          (Or.inl (List.mem_singleton.mp hs'))
  · -- full and strictly harder: heappop then heappush
    have hfull : h.length = k := le_antisymm (by have := inv.len; omega) hk
    have hes : k ≤ es.length := by have := inv.len; omega
    have hsorted_rest : rest.Sorted entryLe := by
      rw [hh] at inv; exact inv.sorted.of_cons
    have hroot_rest : ∀ e ∈ rest, entryLe root e := by
      rw [hh] at inv; exact List.rel_of_sorted_cons inv.sorted
    subst hout
    dsimp only
    refine ⟨List.Sorted.orderedInsert _ _ hsorted_rest, ?_, ?_, ?_, ?_⟩
    · rw [List.orderedInsert_length, List.length_append, List.length_singleton]
      simp [hh] at hfull
      omega
    · intro e he
      rcases (List.mem_orderedInsert entryLe).mp he with he | he
      · simp [he]
      · exact List.mem_append_left _ (inv.mem e (by rw [hh]; exact List.mem_cons_of_mem _ he))
    · intro e he s hsmem hsnot
      -- the confidence of any dropped or rejected entry is at most root.1
      have hroot_mem : root ∈ h := by rw [hh]; exact List.mem_cons_self _ _
      have hs1 : s.1 ≤ root.1 := by
        rcases List.mem_append.mp hsmem with hs' | hs'
        · by_cases hsh : s ∈ h
          · rw [hh] at hsh
            rcases List.mem_cons.mp hsh with hsr | hsr
            · exact le_of_eq (by rw [hsr])
            · exact absurd ((List.mem_orderedInsert entryLe).mpr (Or.inr hsr)) hsnot
          · exact inv.dom root hroot_mem s hs' hsh
        · exact absurd ((List.mem_orderedInsert entryLe).mpr
            (Or.inl (List.mem_singleton.mp hs'))) hsnot
      rcases (List.mem_orderedInsert entryLe).mp he with he | he
      · exact hs1.trans (le_of_lt (by rw [he]; exact hroot))
      · exact hs1.trans (entryLe_conf_le (hroot_rest e he))
    · intro hlen
      exfalso
      rw [List.orderedInsert_length] at hlen
      have : rest.length + 1 = k := by rw [hh] at hfull; simpa using hfull
      omega
  · -- full and not harder: rejected, heap unchanged
    have hfull : h.length = k := le_antisymm (by have := inv.len; omega) hk
    have hes : k ≤ es.length := by have := inv.len; omega
    subst hout
    dsimp only
    refine ⟨inv.sorted, ?_, ?_, ?_, ?_⟩
    · rw [hfull, List.length_append, List.length_singleton]; omega
    · intro e he; exact List.mem_append_left _ (inv.mem e he)
    · intro e he s hsmem hsnot
      rcases List.mem_append.mp hsmem with hs' | hs'
      · exact inv.dom e he s hs' hsnot
      · -- the new record: its confidence is at most the root's
        have hs'' : s = (a, i) := List.mem_singleton.mp hs'
        have ha : a ≤ root.1 := le_of_not_lt hroot
        have hroot_le : root.1 ≤ e.1 := by
          rw [hh] at he inv
          rcases List.mem_cons.mp he with he' | he'
          · exact le_of_eq (by rw [he'])
          · exact entryLe_conf_le (List.rel_of_sorted_cons inv.sorted e he')
        rw [hs'']
        exact ha.trans hroot_le
    · intro hlen; omega

/-- Running the loop from an invariant state keeps the invariant. -/
theorem heapInv_runAux {k : ℕ} (es : List (ℚ × ℕ)) :
    ∀ es₀ h₀ h, HeapInv k es₀ h₀ → heapRunAux k h₀ es = some h →
      HeapInv k (es₀ ++ es) h := by
  induction es with
  | nil =>
    intro es₀ h₀ h inv hr
    simp only [heapRunAux, Option.some_inj] at hr
    subst hr
    simpa using inv
  | cons e es ih =>
    intro es₀ h₀ h inv hr
    unfold heapRunAux at hr
    cases hstep : crlHeapStep k h₀ e.1 e.2 with
    | none => rw [hstep] at hr; cases hr
    | some x =>
      rw [hstep] at hr
      have inv' : HeapInv k (es₀ ++ [e]) x.1 := by
        simpa using heapInv_step inv hstep
      have := ih (es₀ ++ [e]) x.1 h inv' hr
      simpa [List.append_assoc] using this

/-- The invariant holds for the loop started from the empty heap. -/
theorem heapInv_run {k : ℕ} {es h : List (ℚ × ℕ)}
    (hr : heapRunAux k [] es = some h) : HeapInv k es h := by
  simpa using heapInv_runAux es [] [] h heapInv_nil hr

/-- The whole-state loop decomposes class by class: each bucket is the
single-heap run over that class's entry stream. -/
theorem crlRunAux_class {k : ℕ} (rs : List HRec) :
    ∀ st₀ st, crlRunAux k st₀ rs = some st →
      ∀ c, heapRunAux k (st₀ c) (classEntries c rs) = some (st c) := by
  induction rs with
  | nil =>
    intro st₀ st hr c
    simp only [crlRunAux, Option.some_inj] at hr
    subst hr
    simp [classEntries, heapRunAux]
  | cons r rs ih =>
    intro st₀ st hr c
    unfold crlRunAux at hr
    cases hstep : crlStep k st₀ r with
    | none => rw [hstep] at hr; cases hr
    | some st₁ =>
      rw [hstep] at hr
      unfold crlStep at hstep
      cases hh : crlHeapStep k (st₀ r.plab) r.conf r.idx with
      | none => rw [hh] at hstep; cases hstep
      | some x =>
        rw [hh] at hstep
        have hst₁ : st₁ = Function.update st₀ r.plab x.1 :=
          (Option.some_inj.mp (by simpa using hstep)).symm
        by_cases hc : r.plab = c
        · subst hc
          rw [classEntries, if_pos rfl]
          unfold heapRunAux
          rw [hh]
          have := ih st₁ st hr r.plab
          rwa [hst₁, Function.update_same] at this
        · rw [classEntries, if_neg hc]
          have := ih st₁ st hr c
          rwa [hst₁, Function.update_noteq (fun hcc => hc hcc.symm)] at this

/-- Bucket `c` of the full run is the single-heap run on that class's
records. -/
theorem runC_heapRun {k : ℕ} {rs : List HRec} {c : ℕ} {hp : List (ℚ × ℕ)}
    (h : runC k rs c = some hp) :
    heapRunAux k [] (classEntries c rs) = some hp := by
  rcases Option.map_eq_some'.mp h with ⟨st, hst, hc⟩
  subst hc
  exact crlRunAux_class rs _ st hst c

/-- The heap invariant for every bucket of every run of the mining loop. -/
theorem runC_inv {k : ℕ} {rs : List HRec} {c : ℕ} {hp : List (ℚ × ℕ)}
    (h : runC k rs c = some hp) : HeapInv k (classEntries c rs) hp :=
  heapInv_run (runC_heapRun h)

/-- Appending to the record stream continues the loop from the reached
state. -/
theorem crlRunAux_append (k : ℕ) (l₁ l₂ : List HRec) :
    ∀ st₀ : MineSt, crlRunAux k st₀ (l₁ ++ l₂) =
      (crlRunAux k st₀ l₁).bind (fun st => crlRunAux k st l₂) := by
  induction l₁ with
  | nil => intro st₀; simp [crlRunAux]
  | cons r l₁ ih =>
    intro st₀
    have hl : crlRunAux k st₀ (r :: (l₁ ++ l₂)) =
        match crlStep k st₀ r with
        | none => none
        | some st' => crlRunAux k st' (l₁ ++ l₂) := rfl
    have hr2 : crlRunAux k st₀ (r :: l₁) =
        match crlStep k st₀ r with
        | none => none
        | some st' => crlRunAux k st' l₁ := rfl
    rw [List.cons_append, hl, hr2]
    cases crlStep k st₀ r with
    | none => simp
    | some st₁ => simpa using ih st₁

/-- Every entry of a class's stream comes from a record of that class. -/
theorem classEntries_mem {c : ℕ} {rs : List HRec} {e : ℚ × ℕ}
    (h : e ∈ classEntries c rs) :
    ∃ r ∈ rs, r.plab = c ∧ e = (r.conf, r.idx) := by
  induction rs with
  | nil => cases h
  | cons r rs ih =>
    rw [classEntries] at h
    by_cases hc : r.plab = c
    · rw [if_pos hc] at h
      rcases List.mem_cons.mp h with he | he
      · exact ⟨r, List.mem_cons_self _ _, hc, he⟩
      · rcases ih he with ⟨r', hr', hc', he'⟩
        exact ⟨r', List.mem_cons_of_mem _ hr', hc', he'⟩
    · rw [if_neg hc] at h
      rcases ih h with ⟨r', hr', hc', he'⟩
      exact ⟨r', List.mem_cons_of_mem _ hr', hc', he'⟩

/-- Every mined record's ground-truth label is the label of one of the rows
it was mined from. -/
theorem mineRows_tlab {r : HRec} :
    ∀ {j : ℕ} {l : List (ℕ × List ℚ)}, r ∈ mineRows j l → ∃ p ∈ l, r.tlab = p.1 := by
  intro j l
  induction l generalizing j with
  | nil => intro h; cases h
  | cons p l ih =>
    intro h
    rw [mineRows] at h
    rcases p with ⟨lab, scores⟩
    by_cases hm : argmax scores ≠ lab
    · rw [if_pos hm] at h
      rcases List.mem_cons.mp h with he | he
      · exact ⟨(lab, scores), List.mem_cons_self _ _, by rw [he]⟩
      · rcases ih he with ⟨p', hp', ht⟩
        exact ⟨p', List.mem_cons_of_mem _ hp', ht⟩
    · rw [if_neg hm] at h
      rcases ih h with ⟨p', hp', ht⟩
      exact ⟨p', List.mem_cons_of_mem _ hp', ht⟩

/-- Records produced by the mask-then-mine pipeline carry a minority-class
ground-truth label. -/
theorem mineCandidates_tlab {mc : List ℕ} {batch : List (ℕ × List ℚ)} {r : HRec}
    (h : r ∈ mineCandidates mc batch) : r.tlab ∈ mc := by
  rcases mineRows_tlab h with ⟨p, hp, ht⟩
  have := List.mem_filter.mp hp
  rw [ht]
  exact of_decide_eq_true this.2

/-- A one-record run is one loop iteration. -/
theorem crlRunAux_singleton (k : ℕ) (st : MineSt) (r : HRec) :
    crlRunAux k st [r] = crlStep k st r := by
  show (match crlStep k st r with
        | none => none
        | some st' => crlRunAux k st' []) = crlStep k st r
  cases crlStep k st r with
  | none => rfl
  | some st' => rfl

/-- Feeding one more record after a run: the new bucket of the record's class
is the loop body applied to the old bucket. -/
theorem runC_snoc {k : ℕ} {rs : List HRec} {st : MineSt}
    (hst : crlRun k rs = some st) (r : HRec) :
    runC k (rs ++ [r]) r.plab =
      (crlHeapStep k (st r.plab) r.conf r.idx).map (fun x => x.1) := by
  have h1 : crlRun k (rs ++ [r]) = (crlRun k rs).bind (fun s => crlRunAux k s [r]) :=
    crlRunAux_append k rs [r] _
  rw [runC, h1, hst, Option.some_bind, crlRunAux_singleton, crlStep, Option.map_map]
  congr 1
  funext x
  simp [Function.update_same]

/-! ## The claims -/

/-- C1: after every update of the mining loop, each class's hard-sample
collection holds exactly `min k n` of the `n` misclassified records seen so
far for that class, all of them seen entries, each held entry at least as
confident as every seen-but-not-held entry (all seen records are held while
fewer than `k` exist); and when a record strictly harder than the heap root
arrives at a full collection, the evicted entry is the root, whose confidence
is minimal among the held entries. -/
theorem crl_topk_selection (k : ℕ) (rs : List HRec) (c : ℕ) (hp : List (ℚ × ℕ))
    (h : runC k rs c = some hp) :
    (hp.length = min k (classEntries c rs).length
      ∧ (∀ e ∈ hp, e ∈ classEntries c rs)
      ∧ (∀ e ∈ hp, ∀ s ∈ classEntries c rs, s ∉ hp → s.1 ≤ e.1)
      ∧ (hp.length < k → ∀ s ∈ classEntries c rs, s ∈ hp))
    ∧ (∀ (r : HRec) (root : ℚ × ℕ) (rest : List (ℚ × ℕ)),
        hp = root :: rest → r.plab = c → k ≤ hp.length → root.1 < r.conf →
        runC k (rs ++ [r]) c = some (List.orderedInsert entryLe (r.conf, r.idx) rest)
          ∧ ∀ e ∈ hp, root.1 ≤ e.1) := by
  have inv := runC_inv h
  constructor
  · exact ⟨inv.len, inv.mem, inv.dom, inv.nfull⟩
  · intro r root rest hhp hplab hfull hroot
    subst hplab
    rcases Option.map_eq_some'.mp h with ⟨st, hst, hc⟩
    have hstc : st r.plab = root :: rest := by rw [hc, hhp]
    have hsnoc := runC_snoc hst r
    rw [hstc] at hsnoc
    have hlen : k ≤ (root :: rest).length := hhp ▸ hfull
    have hstep : crlHeapStep k (root :: rest) r.conf r.idx =
        some (List.orderedInsert entryLe (r.conf, r.idx) rest, 1, 1) := by
      unfold crlHeapStep
      rw [if_pos hlen]
      dsimp only
      rw [if_pos hroot]
    rw [hstep] at hsnoc
    refine ⟨by simpa using hsnoc, ?_⟩
    intro e he
    rw [hhp] at he inv
    rcases List.mem_cons.mp he with he' | he'
    · exact le_of_eq (by rw [he'])
    · exact entryLe_conf_le (List.rel_of_sorted_cons inv.sorted e he')

/-- Witness for C1 at `k = 2` on the concrete stream `demoRecs`. -/
theorem crl_topk_selection_witness :
    [((5 : ℚ), 1), ((7 : ℚ), 2)].length = min 2 (classEntries 0 demoRecs).length :=
  (crl_topk_selection 2 demoRecs 0 [(5, 1), (7, 2)] (by decide)).1.1

/-- C3: every per-class hard-sample list holds at most `k` entries at every
point of the loop (the stream is universally quantified, so every prefix is
covered), and an update of a full list leaves its length unchanged: the push
is preceded by a pop. -/
theorem crl_capacity (k : ℕ) (rs : List HRec) (c : ℕ) (hp : List (ℚ × ℕ))
    (h : runC k rs c = some hp) :
    hp.length ≤ k
    ∧ (∀ (r : HRec) (hp' : List (ℚ × ℕ)), r.plab = c → k ≤ hp.length →
        runC k (rs ++ [r]) c = some hp' → hp'.length = hp.length) := by
  have inv := runC_inv h
  constructor
  · rw [inv.len]; exact Nat.min_le_left _ _
  · intro r hp' hplab hfull h'
    subst hplab
    rcases Option.map_eq_some'.mp h with ⟨st, hst, hc⟩
    have hsnoc := runC_snoc hst r
    rw [hc] at hsnoc
    rw [hsnoc] at h'
    cases hh : crlHeapStep k hp r.conf r.idx with
    | none => rw [hh] at h'; cases h'
    | some x =>
      rw [hh] at h'
      have hx : x.1 = hp' := by simpa using h'
      rcases crlHeapStep_cases hh with ⟨hk, hout⟩ |
          ⟨root, rest, hhp, hk, hroot, hout⟩ | ⟨root, rest, hhp, hk, hroot, hout⟩
      · exact absurd hfull hk
      · rw [← hx, hout]
        dsimp only
        rw [List.orderedInsert_length, hhp, List.length_cons]
      · rw [← hx, hout]

/-- Witness for C3 at `k = 2` on the concrete stream `demoRecs`. -/
theorem crl_capacity_witness :
    [((5 : ℚ), 1), ((7 : ℚ), 2)].length ≤ 2 :=
  (crl_capacity 2 demoRecs 0 [(5, 1), (7, 2)] (by decide)).1

/-- C5: hard-sample mining sees only batch rows whose ground-truth label is
in `min_classes`: every mined record carries a minority ground-truth label,
and every entry of every bucket after the run comes from such a record. -/
theorem crl_minority_only (mc : List ℕ) (batch : List (ℕ × List ℚ)) (k c : ℕ)
    (hp : List (ℚ × ℕ)) (h : runC k (mineCandidates mc batch) c = some hp) :
    (∀ r ∈ mineCandidates mc batch, r.tlab ∈ mc)
    ∧ (∀ e ∈ hp, ∃ r ∈ mineCandidates mc batch,
        r.tlab ∈ mc ∧ r.plab = c ∧ e = (r.conf, r.idx)) := by
  have inv := runC_inv h
  refine ⟨fun r hr => mineCandidates_tlab hr, ?_⟩
  intro e he
  rcases classEntries_mem (inv.mem e he) with ⟨r, hr, hplab, he'⟩
  exact ⟨r, hr, mineCandidates_tlab hr, hplab, he'⟩

/-- Witness for C5 on the concrete batch `demoBatch` with minority classes
`[1, 3]`. -/
theorem crl_minority_only_witness :
    HRec.tlab ⟨0, 3, 2, 1⟩ ∈ [1, 3] :=
  (crl_minority_only [1, 3] demoBatch 2 2 [(3, 0)] (by decide)).1
    ⟨0, 3, 2, 1⟩ (by decide)

/-- C6: the bucket reached on a record stream is unique (the update is a
deterministic function of the stream); within a bucket, entries of equal
confidence are ordered by example index (the heap order is lexicographic in
`(confidence, index)`), so the eviction victim among equally-hard least
entries is the one of least index; and a record whose confidence ties the
root of a full bucket is rejected — the incumbent, which arrived earlier and
so (the loop scans indices in increasing order) has the smaller index, is
retained. -/
theorem crl_deterministic_tiebreak (k : ℕ) (rs : List HRec) (c : ℕ)
    (root : ℚ × ℕ) (rest : List (ℚ × ℕ))
    (h : runC k rs c = some (root :: rest)) :
    (∀ hp₂, runC k rs c = some hp₂ → hp₂ = root :: rest)
    ∧ List.Sorted entryLe (root :: rest)
    ∧ (∀ e ∈ rest, root.1 < e.1 ∨ (root.1 = e.1 ∧ root.2 ≤ e.2))
    ∧ (∀ r : HRec, r.plab = c → k ≤ (root :: rest).length → r.conf = root.1 →
        runC k (rs ++ [r]) c = some (root :: rest)) := by
  have inv := runC_inv h
  refine ⟨?_, inv.sorted, ?_, ?_⟩
  · intro hp₂ h₂
    rw [h] at h₂
    exact (Option.some_inj.mp h₂).symm
  · intro e he
    exact List.rel_of_sorted_cons inv.sorted e he
  · intro r hplab hfull htie
    subst hplab
    rcases Option.map_eq_some'.mp h with ⟨st, hst, hc⟩
    have hsnoc := runC_snoc hst r
    rw [hc] at hsnoc
    have hstep : crlHeapStep k (root :: rest) r.conf r.idx =
        some (root :: rest, 0, 0) := by
      unfold crlHeapStep
      rw [if_pos hfull]
      dsimp only
      rw [if_neg (by rw [htie]; exact lt_irrefl _)]
    rw [hstep] at hsnoc
    simpa using hsnoc

/-- Witness for C6 at `k = 1`: the stream `demoRecs` ends in the bucket
`[(7, 2)]`. -/
theorem crl_deterministic_tiebreak_witness :
    List.Sorted entryLe [((7 : ℚ), 2)] :=
  (crl_deterministic_tiebreak 1 demoRecs 0 (7, 2) [] (by decide)).2.1

/-- C2: `crl_loss.py` cannot execute.  Line 159 is parenthesis-unbalanced and
importing the module raises `SyntaxError` before `CRLLoss` is even defined;
independently, the executable paths reference `labels` (line 150),
`hard_ned_ind` (lines 155, 158) and `lab` (lines 161, 163), none of which is
a builtin, a module binding or a local of `forward`, and `torch` (line 101),
which is not bound by `import torch.nn as nn`.  Hence no call of
`CRLLoss.__init__` followed by `CRLLoss.forward` returns a value. -/
theorem crl_loss_never_executes :
    parenBalanced crlLine159 = false
    ∧ crlModuleImport = Except.error PyErr.syntaxError
    ∧ "labels" ∉ crlForwardScope
    ∧ "hard_ned_ind" ∉ crlForwardScope
    ∧ "lab" ∉ crlForwardScope
    ∧ "torch" ∉ crlInitScope :=
  ⟨by decide, rfl, by decide, by decide, by decide, by decide⟩

/-- C7 counterexample: constructing `DOSHead` with a loss module that *is* a
`DOSLoss` does not complete without raising — the `isinstance` guard itself
raises `NameError`, because `DOSLoss` is unbound in `dos_head.py`. -/
theorem dosHead_paired_loss_raises :
    dosHeadInit LossTy.dosLoss = Except.error (PyErr.nameError "DOSLoss") := rfl

/-- C7 amended: `CoSenLinearClsHead.__init__` raises `TypeError` iff its loss
module is not a `CoSenCrossEntropyLoss` and completes otherwise; but
`DOSHead.__init__` raises `NameError` (never `TypeError` from its check, and
it never completes) for every loss module, its paired `DOSLoss` included,
since the name `DOSLoss` is unbound in `dos_head.py`. -/
theorem head_loss_pairing_amended :
    (∀ l : LossTy, cosenHeadInit l =
      if l = LossTy.cosenCE then Except.ok () else Except.error PyErr.typeError)
    ∧ (∀ l : LossTy, dosHeadInit l = Except.error (PyErr.nameError "DOSLoss"))
    ∧ "DOSLoss" ∉ dosHeadInitScope := by
  refine ⟨fun l => ?_, fun l => rfl, by decide⟩
  cases l <;> rfl

/-- C8: at height 5, width 100 and crop size (10, 50) — an image smaller
than the crop in height only, `h < crop_size[0] <= w` — line 104 clamps
`target_h` to `min(w, target_h) = 10 > h`, and `np.random.randint(0, h -
target_h + 1)` is called on the empty range `[0, -4)`, raising `ValueError`
for every random seed: no in-image crop parameters are returned. -/
theorem randCropParams_outside_image (r1 r2 : ℕ) :
    randCropParams (10, 50) 5 100 r1 r2 = none := rfl

/-- C4: whenever `CRLLoss.forward` returns, it returns `loss_weight` times
the plain weighted cross-entropy of its arguments under the resolved
reduction; the mined hard samples are dead state, so the returned loss does
not depend on `min_classes` or `k` at all. -/
theorem crl_forward_ce_only
    (fce : List (List ℚ) → List ℕ → Option (List ℚ) → List ℚ)
    (wrl : List ℚ → Option (List ℚ) → Red → Option ℚ → List ℚ)
    (mc : List ℕ) (k : ℕ) (lw : ℚ) (cw : Option (List ℚ)) (sr : Red)
    (cls_score : List (List ℚ)) (label : List ℕ) (weight : Option (List ℚ))
    (af : Option ℚ) (ro : Option Red) (v : List ℚ)
    (h : crlForward fce wrl mc k lw cw sr cls_score label weight af ro = some v) :
    v = (cross_entropy fce wrl cls_score label weight (ro.getD sr) af
          cw).map (fun x => lw * x)
    ∧ (∀ (mc' : List ℕ) (k' : ℕ) (v' : List ℚ),
        crlForward fce wrl mc' k' lw cw sr cls_score label weight af ro = some v' →
        v' = v) := by
  have hmain : ∀ (mc₀ : List ℕ) (k₀ : ℕ) (v₀ : List ℚ),
      crlForward fce wrl mc₀ k₀ lw cw sr cls_score label weight af ro = some v₀ →
      v₀ = (cross_entropy fce wrl cls_score label weight (ro.getD sr) af
        cw).map (fun x => lw * x) := by
    intro mc₀ k₀ v₀ h₀
    unfold crlForward at h₀
    cases hrun : crlRun k₀ (mineCandidates mc₀ (label.zip cls_score)) with
    | none => rw [hrun] at h₀; cases h₀
    | some st =>
      rw [hrun] at h₀
      exact (Option.some_inj.mp h₀).symm
  exact ⟨hmain mc k v h,
    fun mc' k' v' h' => (hmain mc' k' v' h').trans (hmain mc k v h).symm⟩

/-- Witness for C4 with one-point primitives and the `demoBatch`-like inputs. -/
theorem crl_forward_ce_only_witness :
    [(2 : ℚ) * 1] =
      (cross_entropy (fun _ _ _ => [1]) (fun l _ _ _ => l) [[1, 0]] [1]
        none ((none : Option Red).getD Red.rmean) none none).map
        (fun x => (2 : ℚ) * x) :=
  (crl_forward_ce_only (fun _ _ _ => [1]) (fun l _ _ _ => l) [0] 1 2 none
    Red.rmean [[1, 0]] [1] none none none [(2 : ℚ) * 1] rfl).1

/-- C10: each record update of the mining loop performs at most one heap pop
and at most one heap push, both on a heap of at most `k` entries (so each is
an `O(log k)` `heapq` operation); and the update reads nothing but the bucket
of the record's predicted class — states agreeing on that bucket produce the
same updated bucket, so no per-record work depends on how many records were
already seen. -/
theorem crl_update_cost (k : ℕ) (rs : List HRec) (r : HRec) (po pu sz : ℕ)
    (h : stepOpsC k rs r = some (po, pu, sz)) :
    (po ≤ 1 ∧ pu ≤ 1 ∧ sz ≤ k)
    ∧ (∀ st₁ st₂ : MineSt, st₁ r.plab = st₂ r.plab →
        (crlStep k st₁ r).map (fun s => s r.plab)
          = (crlStep k st₂ r).map (fun s => s r.plab)) := by
  constructor
  · unfold stepOpsC at h
    cases hst : crlRun k rs with
    | none => rw [hst] at h; cases h
    | some st =>
      rw [hst, Option.some_bind] at h
      cases hh : crlHeapStep k (st r.plab) r.conf r.idx with
      | none => rw [hh] at h; cases h
      | some x =>
        rw [hh] at h
        have hx : (x.2.1, x.2.2, (st r.plab).length) = (po, pu, sz) := by
          simpa using h
        have hlen : (st r.plab).length ≤ k := by
          have hinv : HeapInv k (classEntries r.plab rs) (st r.plab) :=
            heapInv_run (crlRunAux_class rs _ st hst r.plab)
          rw [hinv.len]
          exact Nat.min_le_left _ _
        injection hx with h1 hx'
        injection hx' with h2 h3
        subst h1; subst h2; subst h3
        rcases crlHeapStep_cases hh with ⟨_, hout⟩ |
            ⟨_, _, _, _, _, hout⟩ | ⟨_, _, _, _, _, hout⟩ <;>
          rw [hout] <;> exact ⟨by norm_num, by norm_num, hlen⟩
  · intro st₁ st₂ h12
    unfold crlStep
    rw [h12]
    cases crlHeapStep k (st₂ r.plab) r.conf r.idx with
    | none => rfl
    | some x => simp [Function.update_same]

/-- Witness for C10 at `k = 1` on `demoRecs`: the fourth record costs one pop
and one push on a one-entry heap. -/
theorem crl_update_cost_witness : (1 : ℕ) ≤ 1 ∧ (1 : ℕ) ≤ 1 ∧ (1 : ℕ) ≤ 1 :=
  (crl_update_cost 1 demoRecs ⟨3, 9, 0, 0⟩ 1 1 1 (by decide)).1

/-- The output dict of `RandomCrop.transform`, when the call returns, is the
input dict with exactly the two writes of lines 145-146. -/
theorem randomCropTransform_eq {Img Val : Type} {getImg : Val → Option Img}
    {mkImg mkShape : Img → Val} {usePadding : Bool} {impadP : Img → Img}
    {padIfNeeded : Bool} {impadN : Img → Img}
    {cropParams : Img → ℕ × ℕ × ℕ × ℕ} {imcrop : Img → ℤ × ℤ × ℤ × ℤ → Img}
    {results out : String → Option Val}
    (h : randomCropTransform getImg mkImg mkShape usePadding impadP padIfNeeded
      impadN cropParams imcrop results = some out) :
    ∃ im, out = Function.update (Function.update results "img" (some (mkImg im)))
      "img_shape" (some (mkShape im)) := by
  unfold randomCropTransform at h
  cases hv : results "img" with
  | none => rw [hv] at h; cases h
  | some v =>
    rw [hv] at h
    dsimp only at h
    cases hi : getImg v with
    | none => rw [hi] at h; cases h
    | some img0 =>
      rw [hi] at h
      exact ⟨_, (Option.some_inj.mp h).symm⟩

/-- The output dict of `RandomResizedCrop.transform`, when the call returns,
is the input dict with exactly the two writes of lines 296-297. -/
theorem randomResizedCropTransform_eq {Img Val : Type} {getImg : Val → Option Img}
    {mkImg mkShape : Img → Val} {cropParams : Img → ℕ × ℕ × ℕ × ℕ}
    {imcrop : Img → ℤ × ℤ × ℤ × ℤ → Img} {imresize : Img → Img}
    {results out : String → Option Val}
    (h : randomResizedCropTransform getImg mkImg mkShape cropParams imcrop
      imresize results = some out) :
    ∃ im, out = Function.update (Function.update results "img" (some (mkImg im)))
      "img_shape" (some (mkShape im)) := by
  unfold randomResizedCropTransform at h
  cases hv : results "img" with
  | none => rw [hv] at h; cases h
  | some v =>
    rw [hv] at h
    dsimp only at h
    cases hi : getImg v with
    | none => rw [hi] at h; cases h
    | some img0 =>
      rw [hi] at h
      exact ⟨_, (Option.some_inj.mp h).symm⟩

/-- Writing `img` then `img_shape` changes nothing else. -/
theorem update2_frame {Val : Type} (d : String → Option Val) (v₁ v₂ : Option Val) :
    (∀ key : String, key ≠ "img" → key ≠ "img_shape" →
      Function.update (Function.update d "img" v₁) "img_shape" v₂ key = d key)
    ∧ Function.update (Function.update d "img" v₁) "img_shape" v₂ "img" = v₁
    ∧ Function.update (Function.update d "img" v₁) "img_shape" v₂ "img_shape" = v₂ := by
  refine ⟨fun key h1 h2 => ?_, ?_, ?_⟩
  · rw [Function.update_noteq h2, Function.update_noteq h1]
  · rw [Function.update_noteq (by decide), Function.update_same]
  · rw [Function.update_same]

/-- C9: `RandomCrop.transform` and `RandomResizedCrop.transform` modify only
the `img` and `img_shape` entries: every other key keeps its input value, and
in each returned dict `img_shape` is the shape of the returned `img` (both
are written from the same final image). -/
theorem crop_transforms_frame {Img Val : Type} (getImg : Val → Option Img)
    (mkImg mkShape : Img → Val) (usePadding : Bool) (impadP : Img → Img)
    (padIfNeeded : Bool) (impadN : Img → Img)
    (cropParams₁ cropParams₂ : Img → ℕ × ℕ × ℕ × ℕ)
    (imcrop : Img → ℤ × ℤ × ℤ × ℤ → Img) (imresize : Img → Img)
    (results out₁ out₂ : String → Option Val)
    (h₁ : randomCropTransform getImg mkImg mkShape usePadding impadP padIfNeeded
      impadN cropParams₁ imcrop results = some out₁)
    (h₂ : randomResizedCropTransform getImg mkImg mkShape cropParams₂ imcrop
      imresize results = some out₂) :
    (∀ key : String, key ≠ "img" → key ≠ "img_shape" →
      out₁ key = results key ∧ out₂ key = results key)
    ∧ (∃ im, out₁ "img" = some (mkImg im) ∧ out₁ "img_shape" = some (mkShape im))
    ∧ (∃ im, out₂ "img" = some (mkImg im) ∧ out₂ "img_shape" = some (mkShape im)) := by
  rcases randomCropTransform_eq h₁ with ⟨im₁, ho₁⟩
  rcases randomResizedCropTransform_eq h₂ with ⟨im₂, ho₂⟩
  subst ho₁
  subst ho₂
  exact ⟨fun key hk1 hk2 => ⟨(update2_frame results _ _).1 key hk1 hk2,
      (update2_frame results _ _).1 key hk1 hk2⟩,
    ⟨im₁, (update2_frame results _ _).2.1, (update2_frame results _ _).2.2⟩,
    ⟨im₂, (update2_frame results _ _).2.1, (update2_frame results _ _).2.2⟩⟩

/-- Witness for C9 on the one-key dict `demoDict` over trivial images: the
key `gt_label` is untouched. -/
theorem crop_transforms_frame_witness : demoOut "gt_label" = demoDict "gt_label" :=
  ((crop_transforms_frame (fun _ => some ()) (fun _ => ()) (fun _ => ()) false id
      false id (fun _ => (0, 0, 1, 1)) (fun _ => (0, 0, 1, 1)) (fun _ _ => ())
      (fun i => i) demoDict demoOut demoOut rfl rfl).1
    "gt_label" (by decide) (by decide)).1

end MMPretrain
